import Mathlib

/-!
# threadPool.h : a shallow embedding

The class `threadPool` owns a vector of worker threads, a FIFO queue of
closures, a mutex, a condition variable and a `stop` flag.

* Every access to `tasks` and `stop` happens with `queue_mtx` held, so each
  locked region is one atomic transition of the state.
* A closure in the queue is always `[task] { (*task)(); }` where `task` is a
  `shared_ptr<packaged_task<R()>>` (the queue is private and `enqueue` is its
  only producer).  The closure is identified with the pointer it captures: an
  index into `heap`, the list of packaged tasks allocated so far.
* The wait set of the condition variable is the set of workers whose control
  state is `blocked`.
-/

namespace threadPool

/-- Exceptions: `std::runtime_error` is thrown by `enqueue` itself,
`std::future_error` by a packaged task, `std::system_error` by a `std::thread`
that cannot be started or a mutex that cannot be locked, `std::bad_alloc` by an
allocation, and `copy_error` stands for whatever the copy of a callable or of
an argument throws. -/
inductive Exn where
  | runtime_error (what : String)
  | future_error (what : String)
  | system_error (what : String)
  | bad_alloc
  | copy_error (what : String)
deriving DecidableEq

/-- Shared state of a `packaged_task` / `future` pair. -/
inductive Cell (α ε : Type) where
  | pending
  | value (v : α)
  | exception (e : ε)

/-- Store the outcome of a call: a returned value or a thrown exception. -/
def Cell.ofResult {α ε : Type} : Except ε α → Cell α ε
  | .ok v => .value v
  | .error e => .exception e

/-- The object behind `std::make_shared<std::packaged_task<return_type()>>`:
the bound callable `std::bind(f, args...)` and the shared state. -/
structure PackagedTask (α ε : Type) where
  fn : Unit → Except ε α
  state : Cell α ε

/-- Control state of one worker thread (the lambda of lines 48-71).
`awaiting`: about to take the lock and test the `while` condition (line 54-55);
`blocked`: inside `cv.wait(lck)` (line 57);
`executing t`: the lock is released and `task()` runs (line 68);
`exited`: the `return` of line 62 was taken;
`faulted`: `tasks.front()` was evaluated on an empty queue (line 65);
`terminated`: an exception left the thread function. -/
inductive Worker where
  | awaiting
  | blocked
  | executing (task : Nat)
  | exited
  | faulted
  | terminated
deriving DecidableEq

/-- Program state: the data members `workers`, `tasks`, `stop`, the heap of
packaged tasks, and two history variables: `accepted` lists the tasks pushed by
`enqueue` in push order, `completed` lists the tasks whose call `task()`
returned, in order of return. -/
structure State (α ε : Type) where
  workers : List Worker
  tasks : List Nat
  stop : Bool
  heap : List (PackagedTask α ε)
  accepted : List Nat
  completed : List Nat

variable {α ε : Type}

/-- State in which the constructor returns, when it returns: `stop` false, an
empty queue, `thread_num` workers at the top of their loop. -/
def initial (thread_num : Nat) : State α ε :=
  { workers := List.replicate thread_num Worker.awaiting, tasks := [], stop := false,
    heap := [], accepted := [], completed := [] }

/-- Result of one pass through the locked region of the worker. -/
inductive Popped where
  | wait
  | terminal
  | task (t : Nat) (rest : List Nat)
  | front_on_empty
deriving DecidableEq

/-- Lines 60-66: the exit test, then `tasks.front()` and `tasks.pop()`. -/
def afterWait (stop : Bool) (tasks : List Nat) : Popped :=
  if stop == true && tasks.isEmpty == true then Popped.terminal
  else
    match tasks with
    | [] => Popped.front_on_empty
    | t :: rest => Popped.task t rest

/-- Lines 54-66 with the lock held: the `while` test of line 55 (true means
`cv.wait`), then `afterWait`. -/
def popBlocking (stop : Bool) (tasks : List Nat) : Popped :=
  if stop == false && tasks.isEmpty == true then Popped.wait
  else afterWait stop tasks

/-- Worker `i` takes the lock and runs lines 54-67 once. -/
def acquire (i : Nat) (s : State α ε) : State α ε :=
  match s.workers[i]? with
  | some Worker.awaiting =>
    match popBlocking s.stop s.tasks with
    | Popped.wait => { s with workers := s.workers.set i Worker.blocked }
    | Popped.terminal => { s with workers := s.workers.set i Worker.exited }
    | Popped.task t rest =>
      { s with tasks := rest, workers := s.workers.set i (Worker.executing t) }
    | Popped.front_on_empty => { s with workers := s.workers.set i Worker.faulted }
  | _ => s

/-- Worker `i` returns from `cv.wait` (notified or spuriously) and goes back to
the `while` test. -/
def wake (i : Nat) (s : State α ε) : State α ε :=
  match s.workers[i]? with
  | some Worker.blocked => { s with workers := s.workers.set i Worker.awaiting }
  | _ => s

/-- The call `(*task)()` on a packaged task: the bound callable runs, its value
or exception is stored in the shared state; a task without state or already
invoked throws `future_error`. -/
def invoke (t : Nat) (heap : List (PackagedTask α ε)) :
    Except Exn (List (PackagedTask α ε)) :=
  match heap[t]? with
  | none => Except.error (Exn.future_error "no_state")
  | some pt =>
    match pt.state with
    | Cell.pending => Except.ok (heap.set t { pt with state := Cell.ofResult (pt.fn ()) })
    | _ => Except.error (Exn.future_error "promise_already_satisfied")

/-- Line 68, `task()`, for worker `i`; then back to the top of `for(;;)`. An
exception leaving `task()` leaves the thread function. -/
def finish (i : Nat) (s : State α ε) : State α ε :=
  match s.workers[i]? with
  | some (Worker.executing t) =>
    match invoke t s.heap with
    | Except.ok heap' =>
      { s with heap := heap', completed := s.completed ++ [t],
               workers := s.workers.set i Worker.awaiting }
    | Except.error _ => { s with workers := s.workers.set i Worker.terminated }
  | _ => s

/-- Indices of the workers inside `cv.wait`. -/
def blockedWorkers (s : State α ε) : List Nat :=
  (List.range s.workers.length).filter (fun i => s.workers[i]? == some Worker.blocked)

/-- The call `cv.notify_one()`: one waiting worker, chosen by `k`, returns from
`cv.wait`; nothing happens when no worker waits. -/
def notify_one (k : Nat) (s : State α ε) : State α ε :=
  match blockedWorkers s with
  | [] => s
  | i :: rest => wake ((i :: rest).getD (k % (rest.length + 1)) i) s

/-- The call `cv.notify_all()`: every waiting worker returns from `cv.wait`. -/
def notify_all (s : State α ε) : State α ε :=
  { s with workers := s.workers.map (fun w => if w = Worker.blocked then Worker.awaiting else w) }

/-- Lines 91-101 of `enqueue`, with the lock held: `stop` is tested, then the
closure is pushed with `tasks.emplace`; `pushed` is the exception the push
throws (the queue cannot grow), `none` when it completes. On either `throw`
path the packaged task is owned by the locals `task` and `res` only and is
destroyed by unwinding, so the heap is as before, and the queue is untouched. -/
def enqueueLocked (fn : Unit → Except ε α) (pushed : Option Exn) (s : State α ε) :
    Except Exn Nat × State α ε :=
  if s.stop then
    (Except.error (Exn.runtime_error "enqueue on stopped threadpool"), s)
  else
    match pushed with
    | some e => (Except.error e, s)
    | none =>
      (Except.ok s.heap.length,
       { s with heap := s.heap ++ [{ fn := fn, state := Cell.pending }],
                tasks := s.tasks ++ [s.heap.length],
                accepted := s.accepted ++ [s.heap.length] })

/-- The member `threadPool::enqueue(f, args...)`. Lines 86-91 run before the
`stop` test: callable and arguments are copied into `std::bind`, the packaged
task is allocated, its future taken, the mutex locked; `made` is the exception
this throws, `none` when it completes. Then lines 91-101, then
`cv.notify_one()` and `return res`. The future is the index of its shared
state. -/
def enqueue {A : Type} (f : A → Except ε α) (args : A) (made pushed : Option Exn) (k : Nat)
    (s : State α ε) : Except Exn Nat × State α ε :=
  match made with
  | some e => (Except.error e, s)
  | none =>
    match enqueueLocked (fun _ => f args) pushed s with
    | (Except.ok res, s') => (Except.ok res, notify_one k s')
    | (Except.error e, s') => (Except.error e, s')

/-- Lines 110-113 of the destructor: `stop = true` with the lock held. -/
def shutdown (s : State α ε) : State α ε :=
  { s with stop := true }

/-- The call `future::get()`: `none` while the shared state is pending (the
caller blocks), else the stored value or the stored exception, rethrown. -/
def futureGet (res : Nat) (s : State α ε) : Option (Except ε α) :=
  match s.heap[res]? with
  | none => none
  | some pt =>
    match pt.state with
    | Cell.pending => none
    | Cell.value v => some (Except.ok v)
    | Cell.exception e => some (Except.error e)

/-- Atomic transitions of the whole program. -/
inductive Action (α ε : Type) where
  | submit (fn : Unit → Except ε α)
  | notify_one (k : Nat)
  | shutdown
  | notify_all
  | wake (i : Nat)
  | acquire (i : Nat)
  | finish (i : Nat)

/-- One transition. `submit` is the locked part of a call of `enqueue` in
which nothing but the `stop` test throws (a call that throws changes nothing,
so it is no transition); `wake` is a return from `cv.wait`, spurious or not. -/
def step (a : Action α ε) (s : State α ε) : State α ε :=
  match a with
  | Action.submit fn => (enqueueLocked fn none s).2
  | Action.notify_one k => notify_one k s
  | Action.shutdown => shutdown s
  | Action.notify_all => notify_all s
  | Action.wake i => wake i s
  | Action.acquire i => acquire i s
  | Action.finish i => finish i s

/-- An interleaving: the transitions of `acts` from left to right. -/
def run (acts : List (Action α ε)) (s : State α ε) : State α ε :=
  acts.foldl (fun st a => step a st) s

/-- Tasks a worker holds between `tasks.pop()` and the return of `task()`. -/
def Worker.inflight : Worker → List Nat
  | Worker.executing t => [t]
  | _ => []

/-- Tasks dequeued and not yet completed, in worker order. -/
def inflight (s : State α ε) : List Nat :=
  s.workers.flatMap Worker.inflight

/-- A worker whose thread function is still running. -/
def Worker.live : Worker → Bool
  | Worker.awaiting => true
  | Worker.blocked => true
  | Worker.executing _ => true
  | _ => false

/-- Number of workers still running their loop. -/
def liveCount (s : State α ε) : Nat :=
  s.workers.countP Worker.live

/-- Invariant of every state reachable from the constructor of a pool of `n`
workers. -/
structure Inv (n : Nat) (s : State α ε) : Prop where
  workers_length : s.workers.length = n
  accepted_eq : s.accepted = List.range s.heap.length
  perm : List.Perm s.accepted (s.completed ++ inflight s ++ s.tasks)
  cell : ∀ t pt, s.heap[t]? = some pt →
    pt.state = if t ∈ s.completed then Cell.ofResult (pt.fn ()) else Cell.pending
  exited : Worker.exited ∈ s.workers → s.stop = true ∧ s.tasks = []
  no_fault : Worker.faulted ∉ s.workers
  no_term : Worker.terminated ∉ s.workers

/-- States reachable from the constructor of a pool of `n` workers by some
interleaving of transitions. -/
def Reachable (n : Nat) (s : State α ε) : Prop :=
  ∃ acts : List (Action α ε), s = run acts (initial n)

theorem popBlocking_cons (stop : Bool) (t : Nat) (rest : List Nat) :
    popBlocking stop (t :: rest) = Popped.task t rest := by
  cases stop <;> simp [popBlocking, afterWait]

theorem popBlocking_nil (stop : Bool) :
    popBlocking stop [] = if stop then Popped.terminal else Popped.wait := by
  cases stop <;> simp [popBlocking, afterWait]

theorem popBlocking_ne_front_on_empty (stop : Bool) (tasks : List Nat) :
    popBlocking stop tasks ≠ Popped.front_on_empty := by
  cases tasks with
  | nil => cases stop <;> simp [popBlocking, afterWait]
  | cons t rest => simp [popBlocking_cons]

theorem popBlocking_terminal_iff (stop : Bool) (tasks : List Nat) :
    popBlocking stop tasks = Popped.terminal ↔ stop = true ∧ tasks = [] := by
  cases tasks with
  | nil => cases stop <;> simp [popBlocking, afterWait]
  | cons t rest => simp [popBlocking_cons]

theorem popBlocking_task (stop : Bool) (tasks : List Nat) (t : Nat) (rest : List Nat)
    (h : popBlocking stop tasks = Popped.task t rest) : tasks = t :: rest := by
  cases tasks with
  | nil => cases stop <;> simp [popBlocking, afterWait] at h
  | cons u us =>
    rw [popBlocking_cons] at h
    injection h with h1 h2
    rw [h1, h2]

/-! ## Lists of workers -/

theorem enqueueLocked_none (fn : Unit → Except ε α) (s : State α ε) :
    enqueueLocked fn none s
      = if s.stop then
          (Except.error (Exn.runtime_error "enqueue on stopped threadpool"), s)
        else
          (Except.ok s.heap.length,
           { s with heap := s.heap ++ [{ fn := fn, state := Cell.pending }],
                    tasks := s.tasks ++ [s.heap.length],
                    accepted := s.accepted ++ [s.heap.length] }) := rfl

theorem count_inflight_set (ws : List Worker) (i : Nat) (w w' : Worker)
    (h : ws[i]? = some w) (a : Nat) :
    List.count a ((ws.set i w').flatMap Worker.inflight) + List.count a w.inflight
      = List.count a (ws.flatMap Worker.inflight) + List.count a w'.inflight := by
  induction ws generalizing i with
  | nil => simp at h
  | cons x xs ih =>
    cases i with
    | zero =>
      simp only [List.getElem?_cons_zero, Option.some.injEq] at h
      subst h
      simp only [List.set_cons_zero, List.flatMap_cons, List.count_append]
      omega
    | succ j =>
      simp only [List.getElem?_cons_succ] at h
      have := ih j h
      simp only [List.set_cons_succ, List.flatMap_cons, List.count_append]
      omega

theorem mem_inflight_of_executing (ws : List Worker) (i t : Nat)
    (h : ws[i]? = some (Worker.executing t)) : t ∈ ws.flatMap Worker.inflight := by
  rw [List.mem_flatMap]
  exact ⟨Worker.executing t, List.getElem?_mem h, by simp [Worker.inflight]⟩

theorem inflight_notify_map (ws : List Worker) :
    (ws.map (fun w => if w = Worker.blocked then Worker.awaiting else w)).flatMap Worker.inflight
      = ws.flatMap Worker.inflight := by
  induction ws with
  | nil => rfl
  | cons x xs ih =>
    simp only [List.map_cons, List.flatMap_cons, ih]
    cases x <;> simp [Worker.inflight]

theorem mem_set_elim (ws : List Worker) (i : Nat) (w w' : Worker)
    (h : w ∈ ws.set i w') (hne : w ≠ w') : w ∈ ws := by
  rcases List.mem_or_eq_of_mem_set h with h | h
  · exact h
  · exact absurd h hne

/-! ## The invariant of the transition system -/

theorem inv_initial (n : Nat) : Inv n (initial n : State α ε) := by
  refine ⟨?_, rfl, ?_, ?_, ?_, ?_, ?_⟩
  · simp [initial]
  · simp [initial, inflight, Worker.inflight]
  · intro t pt h; simp [initial] at h
  · intro h; simp [initial] at h
  · intro h; simp [initial] at h
  · intro h; simp [initial] at h

theorem Inv.mem_lt {n : Nat} {s : State α ε} (h : Inv n s) (t : Nat)
    (ht : t ∈ s.completed ++ inflight s ++ s.tasks) : t < s.heap.length := by
  have := h.perm.mem_iff.mpr ht
  rw [h.accepted_eq] at this
  exact List.mem_range.mp this

theorem Inv.nodup {n : Nat} {s : State α ε} (h : Inv n s) :
    (s.completed ++ inflight s ++ s.tasks).Nodup := by
  have := h.perm.nodup_iff.mp (by rw [h.accepted_eq]; exact List.nodup_range _)
  exact this

theorem perm_inflight_set (ws : List Worker) (i : Nat) (w w' : Worker)
    (h : ws[i]? = some w) :
    List.Perm (w.inflight ++ (ws.set i w').flatMap Worker.inflight)
      (w'.inflight ++ ws.flatMap Worker.inflight) := by
  rw [List.perm_iff_count]
  intro a
  have := count_inflight_set ws i w w' h a
  simp only [List.count_append]
  omega

/-- Replacing the control state of a worker that holds no task by another
control state that holds none keeps the invariant, as long as the new state is
a running one. -/
theorem inv_set_idle {n : Nat} {s : State α ε} (h : Inv n s) (i : Nat) (w w' : Worker)
    (hw : s.workers[i]? = some w) (h0 : w.inflight = []) (h1 : w'.inflight = [])
    (hx : w' ≠ Worker.exited) (hf : w' ≠ Worker.faulted) (ht : w' ≠ Worker.terminated) :
    Inv n { s with workers := s.workers.set i w' } := by
  refine ⟨?_, h.accepted_eq, ?_, h.cell, ?_, ?_, ?_⟩
  · simp [h.workers_length]
  · refine h.perm.trans ?_
    have := perm_inflight_set s.workers i w w' hw
    rw [h0, h1] at this
    simp only [List.nil_append] at this
    exact (List.Perm.append_left _ this.symm).append_right _
  · intro hm
    exact h.exited (mem_set_elim _ _ _ _ hm (Ne.symm hx))
  · intro hm
    exact h.no_fault (mem_set_elim _ _ _ _ hm (Ne.symm hf))
  · intro hm
    exact h.no_term (mem_set_elim _ _ _ _ hm (Ne.symm ht))

theorem inv_wake {n : Nat} {s : State α ε} (h : Inv n s) (i : Nat) : Inv n (wake i s) := by
  unfold wake
  split
  · next hw =>
    exact inv_set_idle h i _ _ hw rfl rfl (by decide) (by decide) (by decide)
  · exact h

theorem inv_notify_one {n : Nat} {s : State α ε} (h : Inv n s) (k : Nat) :
    Inv n (notify_one k s) := by
  unfold notify_one
  split
  · exact h
  · exact inv_wake h _

theorem inv_notify_all {n : Nat} {s : State α ε} (h : Inv n s) : Inv n (notify_all s) := by
  have hmem : ∀ w : Worker, w ≠ Worker.awaiting →
      w ∈ s.workers.map (fun w => if w = Worker.blocked then Worker.awaiting else w) →
      w ∈ s.workers := by
    intro w hne hm
    rw [List.mem_map] at hm
    obtain ⟨x, hx, hxw⟩ := hm
    by_cases hb : x = Worker.blocked
    · rw [if_pos hb] at hxw
      exact absurd hxw.symm hne
    · rw [if_neg hb] at hxw
      rw [← hxw]; exact hx
  refine ⟨?_, h.accepted_eq, ?_, h.cell, ?_, ?_, ?_⟩
  · simp [notify_all, h.workers_length]
  · have := h.perm
    simpa [notify_all, inflight, inflight_notify_map] using this
  · intro hm
    exact h.exited (hmem _ (by decide) hm)
  · intro hm
    exact h.no_fault (hmem _ (by decide) hm)
  · intro hm
    exact h.no_term (hmem _ (by decide) hm)

theorem inv_shutdown {n : Nat} {s : State α ε} (h : Inv n s) : Inv n (shutdown s) := by
  refine ⟨h.workers_length, h.accepted_eq, h.perm, h.cell, ?_, h.no_fault, h.no_term⟩
  intro hm
  exact ⟨rfl, (h.exited hm).2⟩

theorem inv_submit {n : Nat} {s : State α ε} (h : Inv n s) (fn : Unit → Except ε α) :
    Inv n (enqueueLocked fn none s).2 := by
  rw [enqueueLocked_none]
  split
  · exact h
  · next hs =>
    refine ⟨h.workers_length, ?_, ?_, ?_, ?_, h.no_fault, h.no_term⟩
    · simp [h.accepted_eq, List.range_succ]
    · have := h.perm
      show List.Perm (s.accepted ++ [s.heap.length])
        (s.completed ++ inflight s ++ (s.tasks ++ [s.heap.length]))
      rw [← List.append_assoc]
      exact this.append_right _
    · intro t pt ht
      show pt.state = if t ∈ s.completed then Cell.ofResult (pt.fn ()) else Cell.pending
      have ht' : (s.heap ++ [{ fn := fn, state := Cell.pending }])[t]? = some pt := ht
      by_cases hlt : t < s.heap.length
      · rw [List.getElem?_append_left hlt] at ht'
        exact h.cell t pt ht'
      · have hnc : t ∉ s.completed := by
          intro hc
          exact hlt (h.mem_lt t (by simp [hc]))
        rw [if_neg hnc]
        rw [List.getElem?_append_right (Nat.le_of_not_lt hlt)] at ht'
        cases hk : t - s.heap.length with
        | zero =>
          rw [hk] at ht'
          simp only [List.getElem?_cons_zero, Option.some.injEq] at ht'
          rw [← ht']
        | succ j =>
          rw [hk] at ht'
          simp at ht'
    · intro hm
      have := (h.exited hm).1
      simp [this] at hs

theorem inv_acquire {n : Nat} {s : State α ε} (h : Inv n s) (i : Nat) :
    Inv n (acquire i s) := by
  unfold acquire
  split
  · next hw =>
    split
    · exact inv_set_idle h i _ _ hw rfl rfl (by decide) (by decide) (by decide)
    · next hp =>
      rw [popBlocking_terminal_iff] at hp
      refine ⟨?_, h.accepted_eq, ?_, h.cell, fun _ => hp, ?_, ?_⟩
      · simp [h.workers_length]
      · refine h.perm.trans ?_
        have := perm_inflight_set s.workers i Worker.awaiting Worker.exited hw
        simp only [Worker.inflight, List.nil_append] at this
        exact (List.Perm.append_left _ this.symm).append_right _
      · intro hm
        exact h.no_fault (mem_set_elim _ _ _ _ hm (by decide))
      · intro hm
        exact h.no_term (mem_set_elim _ _ _ _ hm (by decide))
    · next t rest hp =>
      have htasks := popBlocking_task _ _ _ _ hp
      refine ⟨?_, h.accepted_eq, ?_, h.cell, ?_, ?_, ?_⟩
      · simp [h.workers_length]
      · have hp1 := List.perm_iff_count.mp h.perm
        rw [List.perm_iff_count]
        intro a
        have h1 := hp1 a
        have h2 := count_inflight_set s.workers i Worker.awaiting (Worker.executing t) hw a
        rw [htasks] at h1
        simp only [List.count_append, inflight, Worker.inflight, List.count_cons,
          List.count_nil] at h1 h2 ⊢
        omega
      · intro hm
        have := (h.exited (mem_set_elim _ _ _ _ hm (by simp))).2
        rw [htasks] at this
        exact absurd this (by simp)
      · intro hm
        exact h.no_fault (mem_set_elim _ _ _ _ hm (by simp))
      · intro hm
        exact h.no_term (mem_set_elim _ _ _ _ hm (by simp))
    · next hp => exact absurd hp (popBlocking_ne_front_on_empty _ _)
  · exact h

/-- In a state satisfying the invariant, the task a worker is executing has a
pending shared state, so the call of the packaged task stores its outcome and
throws nothing. -/
theorem invoke_of_executing {n : Nat} {s : State α ε} (h : Inv n s) (i t : Nat)
    (hw : s.workers[i]? = some (Worker.executing t)) :
    ∃ pt, s.heap[t]? = some pt ∧ pt.state = Cell.pending ∧ t ∉ s.completed ∧
      invoke t s.heap
        = Except.ok (s.heap.set t { pt with state := Cell.ofResult (pt.fn ()) }) := by
  have hin : t ∈ inflight s := mem_inflight_of_executing _ _ _ hw
  have hlt : t < s.heap.length := h.mem_lt t (by simp [hin])
  have hnc : t ∉ s.completed := by
    have hnd := h.nodup
    rw [List.append_assoc, List.nodup_append] at hnd
    intro hc
    exact hnd.2.2 hc (List.mem_append_left _ hin)
  have hpt : s.heap[t]? = some s.heap[t] := by simp [hlt]
  have hpend := h.cell t _ hpt
  rw [if_neg hnc] at hpend
  refine ⟨s.heap[t], hpt, hpend, hnc, ?_⟩
  simp only [invoke, hpt, hpend]

theorem finish_of_executing {n : Nat} {s : State α ε} (h : Inv n s) (i t : Nat)
    (hw : s.workers[i]? = some (Worker.executing t)) :
    ∃ pt, s.heap[t]? = some pt ∧ pt.state = Cell.pending ∧ t ∉ s.completed ∧
      finish i s =
        { s with heap := s.heap.set t { pt with state := Cell.ofResult (pt.fn ()) },
                 completed := s.completed ++ [t],
                 workers := s.workers.set i Worker.awaiting } := by
  obtain ⟨pt, h1, h2, h3, h4⟩ := invoke_of_executing h i t hw
  refine ⟨pt, h1, h2, h3, ?_⟩
  simp only [finish, hw, h4]

theorem inv_finish {n : Nat} {s : State α ε} (h : Inv n s) (i : Nat) :
    Inv n (finish i s) := by
  cases hw : s.workers[i]? with
  | none => simpa [finish, hw] using h
  | some w =>
    cases w with
    | executing t =>
      obtain ⟨pt, hpt, _, hnc, heq⟩ := finish_of_executing h i t hw
      rw [heq]
      refine ⟨?_, ?_, ?_, ?_, ?_, ?_, ?_⟩
      · simp [h.workers_length]
      · simp [h.accepted_eq]
      · have hp1 := List.perm_iff_count.mp h.perm
        rw [List.perm_iff_count]
        intro a
        have h1 := hp1 a
        have h2 := count_inflight_set s.workers i (Worker.executing t) Worker.awaiting hw a
        simp only [List.count_append, inflight, Worker.inflight, List.count_cons,
          List.count_nil] at h1 h2 ⊢
        omega
      · intro u pu hu
        show pu.state = if u ∈ s.completed ++ [t] then Cell.ofResult (pu.fn ()) else Cell.pending
        have hu' : (s.heap.set t { pt with state := Cell.ofResult (pt.fn ()) })[u]? = some pu := hu
        by_cases hut : u = t
        · subst hut
          have hlt : u < s.heap.length := (List.getElem?_eq_some.mp hpt).1
          rw [List.getElem?_set_eq_of_lt _ hlt] at hu'
          injection hu' with hu'
          rw [← hu']
          simp
        · rw [List.getElem?_set_ne (Ne.symm hut)] at hu'
          have := h.cell u pu hu'
          simpa [hut] using this
      · intro hm
        exact h.exited (mem_set_elim _ _ _ _ hm (by decide))
      · intro hm
        exact h.no_fault (mem_set_elim _ _ _ _ hm (by decide))
      · intro hm
        exact h.no_term (mem_set_elim _ _ _ _ hm (by decide))
    | awaiting => simpa [finish, hw] using h
    | blocked => simpa [finish, hw] using h
    | exited => simpa [finish, hw] using h
    | faulted => simpa [finish, hw] using h
    | terminated => simpa [finish, hw] using h

theorem inv_step {n : Nat} {s : State α ε} (h : Inv n s) (a : Action α ε) :
    Inv n (step a s) := by
  cases a with
  | submit fn => exact inv_submit h fn
  | notify_one k => exact inv_notify_one h k
  | shutdown => exact inv_shutdown h
  | notify_all => exact inv_notify_all h
  | wake i => exact inv_wake h i
  | acquire i => exact inv_acquire h i
  | finish i => exact inv_finish h i

theorem inv_run {n : Nat} (acts : List (Action α ε)) {s : State α ε} (h : Inv n s) :
    Inv n (run acts s) := by
  induction acts generalizing s with
  | nil => exact h
  | cons a as ih => exact ih (inv_step h a)

theorem inv_reachable (n : Nat) (acts : List (Action α ε)) :
    Inv n (run acts (initial n)) :=
  inv_run acts (inv_initial n)

/-! ## What the transitions leave unchanged -/

theorem map_fn_set (heap : List (PackagedTask α ε)) (t : Nat) (pt : PackagedTask α ε)
    (c : Cell α ε) (h : heap[t]? = some pt) :
    (heap.set t { pt with state := c }).map PackagedTask.fn = heap.map PackagedTask.fn := by
  induction heap generalizing t with
  | nil => rfl
  | cons x xs ih =>
    cases t with
    | zero =>
      simp only [List.getElem?_cons_zero, Option.some.injEq] at h
      subst h
      rfl
    | succ j =>
      simp only [List.getElem?_cons_succ] at h
      simp only [List.set_cons_succ, List.map_cons, ih j h]

theorem invoke_map_fn (t : Nat) (heap heap' : List (PackagedTask α ε))
    (h : invoke t heap = Except.ok heap') :
    heap'.map PackagedTask.fn = heap.map PackagedTask.fn := by
  unfold invoke at h
  split at h
  · cases h
  · next pt hpt =>
    split at h
    · injection h with h
      rw [← h]
      exact map_fn_set heap t pt _ hpt
    · cases h

theorem wake_fields (i : Nat) (s : State α ε) :
    (wake i s).stop = s.stop ∧ (wake i s).tasks = s.tasks ∧ (wake i s).heap = s.heap ∧
      (wake i s).accepted = s.accepted ∧ (wake i s).completed = s.completed := by
  unfold wake
  split <;> simp

theorem notify_one_fields (k : Nat) (s : State α ε) :
    (notify_one k s).stop = s.stop ∧ (notify_one k s).tasks = s.tasks ∧
      (notify_one k s).heap = s.heap ∧ (notify_one k s).accepted = s.accepted ∧
      (notify_one k s).completed = s.completed := by
  unfold notify_one
  split
  · simp
  · exact wake_fields _ s

theorem acquire_fields (i : Nat) (s : State α ε) :
    (acquire i s).stop = s.stop ∧ (acquire i s).heap = s.heap ∧
      (acquire i s).accepted = s.accepted ∧ (acquire i s).completed = s.completed := by
  unfold acquire
  split
  · split <;> simp
  · simp

theorem finish_fields (i : Nat) (s : State α ε) :
    (finish i s).stop = s.stop ∧ (finish i s).tasks = s.tasks ∧
      (finish i s).accepted = s.accepted ∧
      (finish i s).heap.map PackagedTask.fn = s.heap.map PackagedTask.fn := by
  unfold finish
  split
  · split
    · next heap' hinv =>
      exact ⟨rfl, rfl, rfl, invoke_map_fn _ _ _ hinv⟩
    · simp
  · simp

/-- Every transition keeps the callables already on the heap, in place. -/
theorem step_heap_fns (a : Action α ε) (s : State α ε) :
    ∃ l, (step a s).heap.map PackagedTask.fn = s.heap.map PackagedTask.fn ++ l := by
  cases a with
  | submit fn =>
    show ∃ l, (enqueueLocked fn none s).2.heap.map PackagedTask.fn = _
    rw [enqueueLocked_none]
    by_cases hs : s.stop = true
    · rw [if_pos hs]
      exact ⟨[], by simp⟩
    · rw [if_neg hs]
      exact ⟨[fn], by simp⟩
  | notify_one k => exact ⟨[], by simp [step, (notify_one_fields k s).2.2.1]⟩
  | shutdown => exact ⟨[], by simp [step, shutdown]⟩
  | notify_all => exact ⟨[], by simp [step, notify_all]⟩
  | wake i => exact ⟨[], by simp [step, (wake_fields i s).2.2.1]⟩
  | acquire i => exact ⟨[], by simp [step, (acquire_fields i s).2.1]⟩
  | finish i => exact ⟨[], by simp [step, (finish_fields i s).2.2.2]⟩

theorem run_heap_fns (acts : List (Action α ε)) (s : State α ε) :
    ∃ l, (run acts s).heap.map PackagedTask.fn = s.heap.map PackagedTask.fn ++ l := by
  induction acts generalizing s with
  | nil => exact ⟨[], by simp [run]⟩
  | cons a as ih =>
    obtain ⟨l1, h1⟩ := step_heap_fns a s
    obtain ⟨l2, h2⟩ := ih (step a s)
    refine ⟨l1 ++ l2, ?_⟩
    show (run as (step a s)).heap.map PackagedTask.fn = _
    rw [h2, h1, List.append_assoc]

/-- C4: for either value of `stop`, the locked region of the worker on a
non-empty queue `t :: rest` returns the head `t` and leaves `rest`; a worker
woken from `cv.wait` that then sees the queue `t :: rest` ends up executing `t`,
the queue is `rest`, and `stop` is untouched. -/
theorem popBlocking_takes_head (s : State α ε) (i t : Nat) (rest : List Nat)
    (hw : s.workers[i]? = some Worker.blocked) (ht : s.tasks = t :: rest) :
    (∀ stop : Bool, popBlocking stop (t :: rest) = Popped.task t rest) ∧
      (acquire i (wake i s)).workers[i]? = some (Worker.executing t) ∧
      (acquire i (wake i s)).tasks = rest ∧
      (acquire i (wake i s)).stop = s.stop := by
  have hlt : i < s.workers.length := (List.getElem?_eq_some.mp hw).1
  have hwake : wake i s = { s with workers := s.workers.set i Worker.awaiting } := by
    simp only [wake, hw]
  have hget : (wake i s).workers[i]? = some Worker.awaiting := by
    rw [hwake]
    exact List.getElem?_set_eq_of_lt _ hlt
  have hpop : popBlocking (wake i s).stop (wake i s).tasks = Popped.task t rest := by
    rw [hwake]
    show popBlocking s.stop s.tasks = _
    rw [ht]
    exact popBlocking_cons _ _ _
  have hacq : acquire i (wake i s)
      = { wake i s with tasks := rest,
                        workers := (wake i s).workers.set i (Worker.executing t) } := by
    simp only [acquire, hget, hpop]
  refine ⟨fun stop => popBlocking_cons stop t rest, ?_, ?_, ?_⟩
  · rw [hacq]
    have : i < (wake i s).workers.length := (List.getElem?_eq_some.mp hget).1
    exact List.getElem?_set_eq_of_lt _ this
  · rw [hacq]
  · rw [hacq, hwake]

theorem popBlocking_takes_head_witness :
    (run [Action.acquire 0, Action.submit (fun _ => Except.ok 3),
          Action.submit (fun _ => Except.ok 4), Action.shutdown]
        (initial 1 : State Nat String)).workers[0]? = some Worker.blocked ∧
      (acquire 0 (wake 0
        (run [Action.acquire 0, Action.submit (fun _ => Except.ok 3),
              Action.submit (fun _ => Except.ok 4), Action.shutdown]
          (initial 1 : State Nat String)))).workers[0]? = some (Worker.executing 0) ∧
      (acquire 0 (wake 0
        (run [Action.acquire 0, Action.submit (fun _ => Except.ok 3),
              Action.submit (fun _ => Except.ok 4), Action.shutdown]
          (initial 1 : State Nat String)))).tasks = [1] :=
  ⟨rfl,
   (popBlocking_takes_head
     (run [Action.acquire 0, Action.submit (fun _ => Except.ok 3),
           Action.submit (fun _ => Except.ok 4), Action.shutdown]
       (initial 1 : State Nat String)) 0 0 [1] rfl rfl).2.1,
   (popBlocking_takes_head
     (run [Action.acquire 0, Action.submit (fun _ => Except.ok 3),
           Action.submit (fun _ => Except.ok 4), Action.shutdown]
       (initial 1 : State Nat String)) 0 0 [1] rfl rfl).2.2.1⟩

/-- C10: for every value of `stop` and every queue, the locked region of the
worker never evaluates `tasks.front()` on an empty queue: it waits exactly when
`stop` is false and the queue is empty, returns exactly when `stop` is true and
the queue is empty, and otherwise the queue is `t :: rest` and it pops `t`. The
code after the wait loop alone would read an empty queue when `stop` is false,
so it is the loop that excludes it. No worker of a reachable state is in the
`faulted` control state. -/
theorem front_never_on_empty (stop : Bool) (tasks : List Nat) :
    popBlocking stop tasks ≠ Popped.front_on_empty ∧
      (popBlocking stop tasks = Popped.wait ↔ stop = false ∧ tasks = []) ∧
      (popBlocking stop tasks = Popped.terminal ↔ stop = true ∧ tasks = []) ∧
      (∀ t rest, popBlocking stop tasks = Popped.task t rest ↔ tasks = t :: rest) ∧
      afterWait false [] = Popped.front_on_empty ∧
      ∀ (n : Nat) (acts : List (Action α ε)),
        Worker.faulted ∉ (run acts (initial n)).workers := by
  refine ⟨popBlocking_ne_front_on_empty _ _, ?_, popBlocking_terminal_iff _ _, ?_, rfl, ?_⟩
  · cases tasks with
    | nil => cases stop <;> simp [popBlocking, afterWait]
    | cons t rest => simp [popBlocking_cons]
  · intro t rest
    constructor
    · exact popBlocking_task _ _ _ _
    · intro h
      rw [h]
      exact popBlocking_cons _ _ _
  · intro n acts
    exact (inv_reachable n acts).no_fault

/-! ## enqueue on a running pool -/

/-- C5: the locked region of the worker takes the `return` branch exactly when
`stop` is set and the queue is empty, a worker that takes the lock moves to
`exited` exactly in that case, and in every reachable state in which some
worker has exited, `stop` is set, the queue is empty, and every accepted task
is completed or held by a worker that is executing it. -/
theorem exit_only_when_drained (n : Nat) (s : State α ε) (hr : Reachable n s) :
    (∀ (stop : Bool) (tasks : List Nat),
        popBlocking stop tasks = Popped.terminal ↔ stop = true ∧ tasks = []) ∧
      (∀ i : Nat, s.workers[i]? = some Worker.awaiting →
        ((acquire i s).workers[i]? = some Worker.exited ↔ s.stop = true ∧ s.tasks = [])) ∧
      (Worker.exited ∈ s.workers →
        s.stop = true ∧ s.tasks = [] ∧ List.Perm s.accepted (s.completed ++ inflight s)) := by
  obtain ⟨acts, rfl⟩ := hr
  have hinv : Inv n (run acts (initial n)) := inv_reachable n acts
  refine ⟨popBlocking_terminal_iff, ?_, ?_⟩
  · intro i hw
    have hlt : i < (run acts (initial n)).workers.length := (List.getElem?_eq_some.mp hw).1
    cases htasks : (run acts (initial n)).tasks with
    | nil =>
      cases hstop : (run acts (initial n)).stop with
      | false =>
        simp [acquire, hw, htasks, hstop, popBlocking_nil, List.getElem?_set_eq_of_lt _ hlt]
      | true =>
        simp [acquire, hw, htasks, hstop, popBlocking_nil, List.getElem?_set_eq_of_lt _ hlt]
    | cons t rest =>
      simp [acquire, hw, htasks, popBlocking_cons, List.getElem?_set_eq_of_lt _ hlt]
  · intro hex
    obtain ⟨h1, h2⟩ := hinv.exited hex
    refine ⟨h1, h2, ?_⟩
    have := hinv.perm
    rw [h2, List.append_nil] at this
    exact this

theorem exit_only_when_drained_witness :
    Reachable 1
        (run [Action.submit (fun _ => Except.ok 1), Action.shutdown, Action.acquire 0,
              Action.finish 0, Action.acquire 0] (initial 1 : State Nat String)) ∧
      Worker.exited ∈
        (run [Action.submit (fun _ => Except.ok 1), Action.shutdown, Action.acquire 0,
              Action.finish 0, Action.acquire 0] (initial 1 : State Nat String)).workers ∧
      (run [Action.submit (fun _ => Except.ok 1), Action.shutdown, Action.acquire 0,
            Action.finish 0, Action.acquire 0] (initial 1 : State Nat String)).tasks = [] :=
  ⟨⟨_, rfl⟩, by decide,
   ((exit_only_when_drained 1
      (run [Action.submit (fun _ => Except.ok 1), Action.shutdown, Action.acquire 0,
            Action.finish 0, Action.acquire 0] (initial 1 : State Nat String))
      ⟨_, rfl⟩).2.2 (by decide)).2.1⟩

/-! ## Execution of a task -/

theorem countP_live_set (ws : List Worker) (i : Nat) (w w' : Worker)
    (h : ws[i]? = some w) (hl : w.live = w'.live) :
    (ws.set i w').countP Worker.live = ws.countP Worker.live := by
  induction ws generalizing i with
  | nil => rfl
  | cons x xs ih =>
    cases i with
    | zero =>
      simp only [List.getElem?_cons_zero, Option.some.injEq] at h
      subst h
      simp only [List.set_cons_zero, List.countP_cons, hl]
    | succ j =>
      simp only [List.getElem?_cons_succ] at h
      simp only [List.set_cons_succ, List.countP_cons, ih j h]

/-- C7: in every reachable state, when a worker executing task `t` runs
`task()`, the outcome of the bound callable, a value or a failure, is stored
in the shared state of `t` and nothing is thrown into the worker loop: the
worker is back at the top of its loop, no worker is terminated, the number of
running workers is unchanged, and if a task is queued the worker takes it on
its next pass. -/
theorem task_failure_keeps_worker (n : Nat) (s : State α ε) (hr : Reachable n s)
    (i t : Nat) (hw : s.workers[i]? = some (Worker.executing t)) :
    ∃ pt, s.heap[t]? = some pt ∧
      (finish i s).heap[t]? = some { pt with state := Cell.ofResult (pt.fn ()) } ∧
      (∀ e, pt.fn () = Except.error e → futureGet t (finish i s) = some (Except.error e)) ∧
      (∀ v, pt.fn () = Except.ok v → futureGet t (finish i s) = some (Except.ok v)) ∧
      (finish i s).workers[i]? = some Worker.awaiting ∧
      (finish i s).workers = s.workers.set i Worker.awaiting ∧
      Worker.terminated ∉ (finish i s).workers ∧
      liveCount (finish i s) = liveCount s ∧
      (∀ t' rest, (finish i s).tasks = t' :: rest →
        (acquire i (finish i s)).workers[i]? = some (Worker.executing t')) := by
  obtain ⟨acts, rfl⟩ := hr
  have hinv : Inv n (run acts (initial n)) := inv_reachable n acts
  obtain ⟨pt, hpt, _, _, heq⟩ := finish_of_executing hinv i t hw
  have hfin := inv_finish hinv i
  have hlt : i < (run acts (initial n)).workers.length := (List.getElem?_eq_some.mp hw).1
  have hlt' : t < (run acts (initial n)).heap.length := (List.getElem?_eq_some.mp hpt).1
  have hheap : (finish i (run acts (initial n))).heap[t]?
      = some { pt with state := Cell.ofResult (pt.fn ()) } := by
    rw [heq]
    exact List.getElem?_set_eq_of_lt _ hlt'
  have hwi : (finish i (run acts (initial n))).workers[i]? = some Worker.awaiting := by
    rw [heq]
    exact List.getElem?_set_eq_of_lt _ hlt
  refine ⟨pt, hpt, hheap, ?_, ?_, hwi, ?_, hfin.no_term, ?_, ?_⟩
  · intro e he
    simp [futureGet, hheap, he, Cell.ofResult]
  · intro v hv
    simp [futureGet, hheap, hv, Cell.ofResult]
  · rw [heq]
  · rw [heq]
    exact countP_live_set _ i _ _ hw rfl
  · intro t' rest ht'
    have hlt2 : i < (finish i (run acts (initial n))).workers.length :=
      (List.getElem?_eq_some.mp hwi).1
    simp [acquire, hwi, ht', popBlocking_cons, List.getElem?_set_eq_of_lt _ hlt2]

theorem task_failure_keeps_worker_witness :
    Reachable 1
        (run [Action.submit (fun _ => Except.error "boom"),
              Action.submit (fun _ => Except.ok 2), Action.acquire 0]
          (initial 1 : State Nat String)) ∧
      futureGet 0 (finish 0
        (run [Action.submit (fun _ => Except.error "boom"),
              Action.submit (fun _ => Except.ok 2), Action.acquire 0]
          (initial 1 : State Nat String))) = some (Except.error "boom") ∧
      liveCount (finish 0
        (run [Action.submit (fun _ => Except.error "boom"),
              Action.submit (fun _ => Except.ok 2), Action.acquire 0]
          (initial 1 : State Nat String))) = 1 :=
  Exists.elim
    (task_failure_keeps_worker 1
      (run [Action.submit (fun _ => Except.error "boom"),
            Action.submit (fun _ => Except.ok 2), Action.acquire 0]
        (initial 1 : State Nat String))
      ⟨_, rfl⟩ 0 0 rfl)
    (fun _ h => ⟨⟨_, rfl⟩, rfl, h.2.2.2.2.2.2.2.1⟩)

/-! ## One worker: first in, first out -/

theorem inflight_set_idle (ws : List Worker) (i : Nat) (w w' : Worker)
    (h : ws[i]? = some w) (h0 : w.inflight = []) (h1 : w'.inflight = []) :
    (ws.set i w').flatMap Worker.inflight = ws.flatMap Worker.inflight := by
  induction ws generalizing i with
  | nil => rfl
  | cons x xs ih =>
    cases i with
    | zero =>
      simp only [List.getElem?_cons_zero, Option.some.injEq] at h
      subst h
      simp only [List.set_cons_zero, List.flatMap_cons, h0, h1]
    | succ j =>
      simp only [List.getElem?_cons_succ] at h
      simp only [List.set_cons_succ, List.flatMap_cons, ih j h]

theorem inflight_wake (i : Nat) (s : State α ε) : inflight (wake i s) = inflight s := by
  unfold wake
  split
  · next hw => exact inflight_set_idle _ i _ _ hw rfl rfl
  · rfl

theorem inflight_notify_one (k : Nat) (s : State α ε) :
    inflight (notify_one k s) = inflight s := by
  unfold notify_one
  split
  · rfl
  · exact inflight_wake _ s

theorem range_prefix (l1 l2 : List Nat) (n : Nat) (h : l1 ++ l2 = List.range n) :
    l1 = List.range l1.length := by
  have hl : l1.length ≤ n := by
    have := congrArg List.length h
    simp at this
    omega
  have := congrArg (List.take l1.length) h
  simp [List.take_range, hl] at this
  exact this

theorem getElem?_singleton_some (w x : Worker) (i : Nat) (h : [w][i]? = some x) :
    i = 0 ∧ x = w := by
  cases i with
  | zero =>
    simp only [List.getElem?_cons_zero, Option.some.injEq] at h
    exact ⟨rfl, h.symm⟩
  | succ j => simp at h

/-- With one worker the conservation of tasks holds as an equality of lists: a
transition keeps `accepted = completed ++ inflight ++ tasks`. -/
theorem fifo_step {s : State α ε} (hinv : Inv 1 s)
    (hf : s.accepted = s.completed ++ inflight s ++ s.tasks) (a : Action α ε) :
    (step a s).accepted
      = (step a s).completed ++ inflight (step a s) ++ (step a s).tasks := by
  obtain ⟨w, hws⟩ := List.length_eq_one.mp hinv.workers_length
  cases a with
  | submit fn =>
    show (enqueueLocked fn none s).2.accepted = (enqueueLocked fn none s).2.completed
      ++ inflight (enqueueLocked fn none s).2 ++ (enqueueLocked fn none s).2.tasks
    rw [enqueueLocked_none]
    by_cases hs : s.stop = true
    · rw [if_pos hs]
      exact hf
    · rw [if_neg hs]
      show s.accepted ++ [s.heap.length]
        = s.completed ++ inflight s ++ (s.tasks ++ [s.heap.length])
      rw [hf, List.append_assoc (s.completed ++ inflight s)]
  | notify_one k =>
    have := notify_one_fields k s
    show (notify_one k s).accepted = (notify_one k s).completed
      ++ inflight (notify_one k s) ++ (notify_one k s).tasks
    rw [this.2.2.2.1, this.2.2.2.2, this.2.1, inflight_notify_one]
    exact hf
  | shutdown => exact hf
  | notify_all =>
    show s.accepted = s.completed ++ inflight (notify_all s) ++ s.tasks
    have : inflight (notify_all s) = inflight s := inflight_notify_map s.workers
    rw [this]
    exact hf
  | wake i =>
    have := wake_fields i s
    show (wake i s).accepted = (wake i s).completed ++ inflight (wake i s) ++ (wake i s).tasks
    rw [this.2.2.2.1, this.2.2.2.2, this.2.1, inflight_wake]
    exact hf
  | acquire i =>
    show (acquire i s).accepted = (acquire i s).completed ++ inflight (acquire i s)
      ++ (acquire i s).tasks
    unfold acquire
    split
    · next hw =>
      have hi : inflight s = [] := by
        rw [hws] at hw
        obtain ⟨_, hx⟩ := getElem?_singleton_some _ _ _ hw
        simp [inflight, hws, ← hx, Worker.inflight]
      split
      · show s.accepted = s.completed ++ (s.workers.set i Worker.blocked).flatMap Worker.inflight
          ++ s.tasks
        rw [inflight_set_idle _ i _ Worker.blocked hw rfl rfl]
        exact hf
      · show s.accepted = s.completed ++ (s.workers.set i Worker.exited).flatMap Worker.inflight
          ++ s.tasks
        rw [inflight_set_idle _ i _ Worker.exited hw rfl rfl]
        exact hf
      · next t rest hp =>
        have htasks := popBlocking_task _ _ _ _ hp
        show s.accepted
          = s.completed ++ (s.workers.set i (Worker.executing t)).flatMap Worker.inflight ++ rest
        rw [hws] at hw
        obtain ⟨h0, _⟩ := getElem?_singleton_some _ _ _ hw
        rw [hf, hi, htasks, hws, h0]
        simp [Worker.inflight]
      · next hp => exact absurd hp (popBlocking_ne_front_on_empty _ _)
    · exact hf
  | finish i =>
    show (finish i s).accepted = (finish i s).completed ++ inflight (finish i s)
      ++ (finish i s).tasks
    cases hw : s.workers[i]? with
    | none => simpa [finish, hw] using hf
    | some x =>
      cases x with
      | executing t =>
        obtain ⟨pt, _, _, _, heq⟩ := finish_of_executing hinv i t hw
        rw [heq]
        show s.accepted
          = s.completed ++ [t] ++ (s.workers.set i Worker.awaiting).flatMap Worker.inflight
            ++ s.tasks
        have hw' := hw
        rw [hws] at hw'
        obtain ⟨h0, hx⟩ := getElem?_singleton_some _ _ _ hw'
        have hi : inflight s = [t] := by
          simp [inflight, hws, ← hx, Worker.inflight]
        rw [hf, hi, hws, h0]
        simp [Worker.inflight]
      | awaiting => simpa [finish, hw] using hf
      | blocked => simpa [finish, hw] using hf
      | exited => simpa [finish, hw] using hf
      | faulted => simpa [finish, hw] using hf
      | terminated => simpa [finish, hw] using hf

theorem fifo_run (acts : List (Action α ε)) {s : State α ε} (hinv : Inv 1 s)
    (hf : s.accepted = s.completed ++ inflight s ++ s.tasks) :
    (run acts s).accepted
      = (run acts s).completed ++ inflight (run acts s) ++ (run acts s).tasks := by
  induction acts generalizing s with
  | nil => exact hf
  | cons a as ih => exact ih (inv_step hinv a) (fifo_step hinv hf a)

/-- C3: in every reachable state of a pool with one worker, the accepted
tasks in submission order are the completed tasks in completion order, followed
by the task the worker is executing (at most one), followed by the queue. So
the completed tasks are a prefix of the accepted ones, and if `a` was accepted
before `b` and `b` has been dequeued (it is completed or being executed), then
`a` is already completed. -/
theorem single_worker_fifo (s : State α ε) (hr : Reachable 1 s) :
    s.accepted = s.completed ++ inflight s ++ s.tasks ∧
      (inflight s).length ≤ 1 ∧
      s.completed <+: s.accepted ∧
      (∀ (i j a b : Nat), i < j → s.accepted[i]? = some a → s.accepted[j]? = some b →
        b ∈ s.completed ++ inflight s → a ∈ s.completed) := by
  obtain ⟨acts, rfl⟩ := hr
  have hinv : Inv 1 (run acts (initial 1)) := inv_reachable 1 acts
  have hf := fifo_run acts (inv_initial 1) (show (initial 1 : State α ε).accepted = _ from rfl)
  obtain ⟨w, hws⟩ := List.length_eq_one.mp hinv.workers_length
  have hlen : (inflight (run acts (initial 1))).length ≤ 1 := by
    simp only [inflight, hws, List.flatMap_cons, List.flatMap_nil, List.append_nil]
    cases w <;> simp [Worker.inflight]
  refine ⟨hf, hlen, ?_, ?_⟩
  · rw [hf, List.append_assoc]
    exact List.prefix_append _ _
  · intro i j a b hij ha hb hmem
    have hacc := hinv.accepted_eq
    rw [hacc] at ha hb
    have hrange : ∀ (m x : Nat), (List.range (run acts (initial 1)).heap.length)[m]? = some x →
        x = m := by
      intro m x hx
      obtain ⟨hm, hx'⟩ := List.getElem?_eq_some.mp hx
      rw [List.getElem_range] at hx'
      exact hx'.symm
    have hai := hrange i a ha
    have hbj := hrange j b hb
    have hP := range_prefix _ _ _ (hf.symm.trans hacc)
    have hC := range_prefix (run acts (initial 1)).completed _ _
      ((List.append_assoc _ _ _).symm.trans (hf.symm.trans hacc))
    rw [hP, List.mem_range, List.length_append] at hmem
    rw [hC, List.mem_range]
    omega

theorem single_worker_fifo_witness :
    Reachable 1
        (run [Action.submit (fun _ => Except.ok 1), Action.submit (fun _ => Except.ok 2),
              Action.submit (fun _ => Except.ok 3), Action.acquire 0, Action.finish 0,
              Action.acquire 0] (initial 1 : State Nat String)) ∧
      (run [Action.submit (fun _ => Except.ok 1), Action.submit (fun _ => Except.ok 2),
            Action.submit (fun _ => Except.ok 3), Action.acquire 0, Action.finish 0,
            Action.acquire 0] (initial 1 : State Nat String)).accepted = [0] ++ [1] ++ [2] :=
  ⟨⟨_, rfl⟩,
   (single_worker_fifo
      (run [Action.submit (fun _ => Except.ok 1), Action.submit (fun _ => Except.ok 2),
            Action.submit (fun _ => Except.ok 3), Action.acquire 0, Action.finish 0,
            Action.acquire 0] (initial 1 : State Nat String))
      ⟨_, rfl⟩).1⟩

/-! ## Several workers: conservation of tasks -/

/-- In a state satisfying the invariant, what `future::get` delivers is decided
by the log of completed tasks: the outcome of the bound callable once the task
is completed, nothing before. -/
theorem futureGet_of_inv {n : Nat} {s : State α ε} (h : Inv n s) (res : Nat)
    (pt : PackagedTask α ε) (hpt : s.heap[res]? = some pt) :
    futureGet res s = if res ∈ s.completed then some (pt.fn ()) else none := by
  have hc := h.cell res pt hpt
  unfold futureGet
  rw [hpt]
  by_cases hm : res ∈ s.completed
  · rw [if_pos hm] at hc ⊢
    simp only [hc]
    cases pt.fn () <;> rfl
  · rw [if_neg hm] at hc ⊢
    simp only [hc]

theorem run_snoc (acts : List (Action α ε)) (a : Action α ε) (s : State α ε) :
    run (acts ++ [a]) s = step a (run acts s) := by
  simp [run, List.foldl_append]

/-- A transition leaves the log of completed tasks alone, unless it is the
`task()` call of a worker, which appends the task that worker was executing. -/
theorem step_completed (a : Action α ε) (s : State α ε) :
    (step a s).completed = s.completed ∨
      ∃ i t, a = Action.finish i ∧ s.workers[i]? = some (Worker.executing t) ∧
        (step a s).completed = s.completed ++ [t] := by
  cases a with
  | submit fn =>
    left
    show (enqueueLocked fn none s).2.completed = _
    rw [enqueueLocked_none]
    by_cases hs : s.stop = true
    · rw [if_pos hs]
    · rw [if_neg hs]
  | notify_one k => exact Or.inl (notify_one_fields k s).2.2.2.2
  | shutdown => exact Or.inl rfl
  | notify_all => exact Or.inl rfl
  | wake i => exact Or.inl (wake_fields i s).2.2.2.2
  | acquire i => exact Or.inl (acquire_fields i s).2.2.2
  | finish i =>
    cases hw : s.workers[i]? with
    | none => exact Or.inl (by simp [step, finish, hw])
    | some w =>
      cases w with
      | executing t =>
        cases hinv : invoke t s.heap with
        | error e => exact Or.inl (by simp [step, finish, hw, hinv])
        | ok heap' => exact Or.inr ⟨i, t, rfl, hw, by simp [step, finish, hw, hinv]⟩
      | awaiting => exact Or.inl (by simp [step, finish, hw])
      | blocked => exact Or.inl (by simp [step, finish, hw])
      | exited => exact Or.inl (by simp [step, finish, hw])
      | faulted => exact Or.inl (by simp [step, finish, hw])
      | terminated => exact Or.inl (by simp [step, finish, hw])

/-- From a state satisfying the invariant, whatever the interleaving that
follows, the future of a packaged task on the heap delivers the outcome of the
callable bound at submission once the task is completed, and nothing before. -/
theorem future_after_run {n : Nat} {s : State α ε} (h : Inv n s) (res : Nat)
    (pt : PackagedTask α ε) (hpt : s.heap[res]? = some pt) (acts : List (Action α ε)) :
    futureGet res (run acts s)
      = if res ∈ (run acts s).completed then some (pt.fn ()) else none := by
  have hinv := inv_run acts h
  obtain ⟨l, hl⟩ := run_heap_fns acts s
  have hlt : res < (s.heap.map PackagedTask.fn).length := by
    rw [List.length_map]
    exact (List.getElem?_eq_some.mp hpt).1
  have h1 : ((run acts s).heap.map PackagedTask.fn)[res]? = some pt.fn := by
    rw [hl, List.getElem?_append_left hlt, List.getElem?_map, hpt]
    rfl
  rw [List.getElem?_map] at h1
  cases hpt2 : (run acts s).heap[res]? with
  | none => rw [hpt2] at h1; cases h1
  | some pt2 =>
    rw [hpt2] at h1
    have hfn : pt2.fn = pt.fn := by
      simpa using h1
    rw [futureGet_of_inv hinv res pt2 hpt2, hfn]

/-- C8: for every accepted submission of `f` with `args` in a reachable state,
`enqueue` returns a future whose shared state is pending, and after every
interleaving that follows, `future::get` delivers exactly `f args` (the value
returned or the failure raised) if the task is completed and blocks otherwise.
Only the `task()` call of the worker executing this very task changes what the
future holds, and once the future holds an outcome no transition changes it.
A call of `enqueue` returns a future only if nothing was thrown while the task
was constructed and pushed, so these are all the accepted submissions. -/
theorem future_delivers_outcome {A : Type} (n : Nat) (s : State α ε) (hr : Reachable n s)
    (f : A → Except ε α) (args : A) (k : Nat) (hs : s.stop = false)
    (acts : List (Action α ε)) :
    (enqueue f args none none k s).1 = Except.ok s.heap.length ∧
      futureGet s.heap.length (enqueue f args none none k s).2 = none ∧
      futureGet s.heap.length (run acts (enqueue f args none none k s).2)
        = (if s.heap.length ∈ (run acts (enqueue f args none none k s).2).completed
            then some (f args) else none) ∧
      (∀ a : Action α ε,
        futureGet s.heap.length (step a (run acts (enqueue f args none none k s).2))
          ≠ futureGet s.heap.length (run acts (enqueue f args none none k s).2) →
        ∃ i, a = Action.finish i ∧
          (run acts (enqueue f args none none k s).2).workers[i]?
            = some (Worker.executing s.heap.length)) ∧
      (∀ (a : Action α ε) (o : Except ε α),
        futureGet s.heap.length (run acts (enqueue f args none none k s).2) = some o →
        o = f args ∧
          futureGet s.heap.length (step a (run acts (enqueue f args none none k s).2)) = some o) ∧
      (∀ (made pushed : Option Exn) (res : Nat),
        (enqueue f args made pushed k s).1 = Except.ok res →
        enqueue f args made pushed k s = enqueue f args none none k s) := by
  obtain ⟨acts0, rfl⟩ := hr
  have hinv : Inv n (run acts0 (initial n)) := inv_reachable n acts0
  have he : (enqueue f args none none k (run acts0 (initial n))).2
      = notify_one k (enqueueLocked (fun _ => f args) none (run acts0 (initial n))).2 := by
    simp [enqueue, enqueueLocked, hs]
  have he1 : (enqueue f args none none k (run acts0 (initial n))).1
      = Except.ok (run acts0 (initial n)).heap.length := by
    simp [enqueue, enqueueLocked, hs]
  have hinv1 : Inv n (enqueue f args none none k (run acts0 (initial n))).2 := by
    rw [he]
    exact inv_notify_one (inv_submit hinv _) k
  have hheap : (enqueue f args none none k (run acts0 (initial n))).2.heap
      = (run acts0 (initial n)).heap ++ [{ fn := fun _ => f args, state := Cell.pending }] := by
    rw [he, (notify_one_fields k _).2.2.1]
    simp [enqueueLocked, hs]
  have hpt : (enqueue f args none none k (run acts0 (initial n))).2.heap[(run acts0 (initial n)).heap.length]?
      = some { fn := fun _ => f args, state := Cell.pending } := by
    rw [hheap]
    simp
  have hfut := fun l => future_after_run hinv1 _ _ hpt l
  have h0 := hfut []
  have hnc : (run acts0 (initial n)).heap.length
      ∉ (enqueue f args none none k (run acts0 (initial n))).2.completed := by
    intro hc
    have := hinv1.cell _ _ hpt
    rw [if_pos hc] at this
    cases hfa : f args <;> simp [hfa, Cell.ofResult] at this
  refine ⟨he1, ?_, hfut acts, ?_, ?_, ?_⟩
  · have : run [] (enqueue f args none none k (run acts0 (initial n))).2
        = (enqueue f args none none k (run acts0 (initial n))).2 := rfl
    rw [this, if_neg hnc] at h0
    exact h0
  · intro a hne
    have h2 := hfut acts
    have h3 := hfut (acts ++ [a])
    rw [run_snoc] at h3
    rw [h2, h3] at hne
    rcases step_completed a (run acts (enqueue f args none none k (run acts0 (initial n))).2)
      with hsame | ⟨i, t, ha, hw, happ⟩
    · rw [hsame] at hne
      exact absurd rfl hne
    · by_cases ht : t = (run acts0 (initial n)).heap.length
      · exact ⟨i, ha, by rw [hw, ht]⟩
      · rw [happ] at hne
        have hiff : (run acts0 (initial n)).heap.length
              ∈ (run acts (enqueue f args none none k (run acts0 (initial n))).2).completed ++ [t]
            ↔ (run acts0 (initial n)).heap.length
              ∈ (run acts (enqueue f args none none k (run acts0 (initial n))).2).completed := by
          simp [Ne.symm ht]
        simp only [hiff] at hne
        exact absurd rfl hne
  · intro a o ho
    have h2 := hfut acts
    have h3 := hfut (acts ++ [a])
    rw [run_snoc] at h3
    rw [h2] at ho
    by_cases hc : (run acts0 (initial n)).heap.length
        ∈ (run acts (enqueue f args none none k (run acts0 (initial n))).2).completed
    · rw [if_pos hc] at ho
      injection ho with ho
      have hc3 : (run acts0 (initial n)).heap.length
          ∈ (step a (run acts (enqueue f args none none k (run acts0 (initial n))).2)).completed := by
        rcases step_completed a (run acts (enqueue f args none none k (run acts0 (initial n))).2)
          with hsame | ⟨i, t, _, _, happ⟩
        · rw [hsame]; exact hc
        · rw [happ]; exact List.mem_append_left _ hc
      rw [h3, if_pos hc3, ← ho]
      exact ⟨rfl, rfl⟩
    · rw [if_neg hc] at ho
      cases ho
  · intro made pushed res hres
    cases made with
    | some e => cases hres
    | none =>
      cases pushed with
      | some e =>
        simp [enqueue, enqueueLocked, hs] at hres
      | none => rfl

theorem future_delivers_outcome_witness :
    Reachable 1 (initial 1 : State Nat String) ∧
      (initial 1 : State Nat String).stop = false ∧
      futureGet 0
        (run [Action.acquire 0, Action.finish 0]
          (enqueue (fun x : Nat => (Except.ok (x + 1) : Except String Nat)) 5 none none 0
            (initial 1 : State Nat String)).2) = some (Except.ok 6) ∧
      futureGet 0
        (run [Action.acquire 0, Action.finish 0]
          (enqueue (fun _ : Nat => (Except.error "bad" : Except String Nat)) 5 none none 0
            (initial 1 : State Nat String)).2) = some (Except.error "bad") :=
  ⟨⟨[], rfl⟩, rfl,
   (future_delivers_outcome 1 (initial 1 : State Nat String) ⟨[], rfl⟩
      (fun x : Nat => (Except.ok (x + 1) : Except String Nat)) 5 0 rfl
      [Action.acquire 0, Action.finish 0]).2.2.1.trans rfl,
   (future_delivers_outcome 1 (initial 1 : State Nat String) ⟨[], rfl⟩
      (fun _ : Nat => (Except.error "bad" : Except String Nat)) 5 0 rfl
      [Action.acquire 0, Action.finish 0]).2.2.1.trans rfl⟩

end threadPool
